import Mathlib

/-!
Verification of the file-renaming utility `rename_zlibrary_2025-08-19.py`.

The development shallowly embeds the Python source: strings are `List Char`
(a Python `str` is a sequence of Unicode scalar values), the compiled regex
patterns produced by `build_pattern` are sequences of character classes,
`re.sub` is an explicit left-to-right scan, and the filesystem is a list of
existing path names.  Fallible operations (invalid `re.sub` replacement
templates) return `Option`.
-/

namespace Renamer

/-- Python's whitespace predicate (`Py_UNICODE_ISSPACE`), which is what both
`str.isspace` and the regex class `\s` (for `str` patterns) test.  The code
points are U+0009-U+000D, U+001C-U+001F, U+0020, U+0085, U+00A0, U+1680,
U+2000-U+200A, U+2028, U+2029, U+202F, U+205F and U+3000. -/
def isPySpace (c : Char) : Bool :=
  (0x09 ≤ c.toNat && c.toNat ≤ 0x0D) ||
  (0x1C ≤ c.toNat && c.toNat ≤ 0x20) ||
  c.toNat == 0x85 || c.toNat == 0xA0 || c.toNat == 0x1680 ||
  (0x2000 ≤ c.toNat && c.toNat ≤ 0x200A) ||
  c.toNat == 0x2028 || c.toNat == 0x2029 ||
  c.toNat == 0x202F || c.toNat == 0x205F || c.toNat == 0x3000

/-- No-break space U+00A0. -/
def nbsp : Char := ' '

/-- Narrow no-break space U+202F. -/
def nnbsp : Char := ' '

/-- The nine characters of the source's `HYPHENS_CLASS`
(`r"\-‐‑‒–—−﹣－"`): hyphen-minus,
hyphen, non-breaking hyphen, figure dash, en dash, em dash, minus sign,
small hyphen-minus, fullwidth hyphen-minus. -/
def hyphenChars : List Char :=
  ['-', '‐', '‑', '‒', '–', '—', '−',
   '﹣', '－']

/-- The set of characters matched by the source's `SPACES_CLASS`
(`r"\s  "`): any Python whitespace character, plus NBSP and
narrow NBSP (which are in fact already Python whitespace). -/
def spacesClassChar (c : Char) : Bool :=
  isPySpace c || c == nbsp || c == nnbsp

/-! ### Normalizer (`normalize_spaces`, source lines 13-19)

The three `re.sub` passes are embedded as fuel-indexed scans (the fuel is
initialised to the string length, which every step strictly decreases, so
the zero-fuel fallback branches are unreachable).  Each scan mirrors the
leftmost, greedy, non-overlapping semantics of the corresponding regex. -/

/-- Scan for the first substitution of the source (the space class followed
by a plus, replaced by a single space): each maximal run of characters of
the space class is replaced by one ASCII space. -/
def squashSpaceClassGo : Nat → List Char → List Char
  | _, [] => []
  | 0, _ :: _ => []
  | fuel + 1, c :: rest =>
    if spacesClassChar c then
      ' ' :: squashSpaceClassGo fuel (rest.dropWhile spacesClassChar)
    else c :: squashSpaceClassGo fuel rest

/-- First pass of `normalize_spaces`. -/
def squashSpaceClass (s : List Char) : List Char :=
  squashSpaceClassGo s.length s

/-- Scan for `re.sub(r"\s{2,}", " ", name)`: each maximal run of at least two
whitespace characters is replaced by one ASCII space; a lone whitespace
character is left as it is. -/
def squashWsRunsGo : Nat → List Char → List Char
  | _, [] => []
  | 0, _ :: _ => []
  | fuel + 1, c :: rest =>
    if isPySpace c && (match rest with | [] => false | b :: _ => isPySpace b) then
      ' ' :: squashWsRunsGo fuel (rest.dropWhile isPySpace)
    else c :: squashWsRunsGo fuel rest

/-- Second pass of `normalize_spaces`. -/
def squashWsRuns (s : List Char) : List Char :=
  squashWsRunsGo s.length s

/-- Scan for `re.sub(r"\s+\.", ".", name)`: a maximal whitespace run that is
immediately followed by a period is deleted together with it, leaving just
the period ("name .pdf" becomes "name.pdf"). -/
def dropWsBeforeDotGo : Nat → List Char → List Char
  | _, [] => []
  | 0, _ :: _ => []
  | fuel + 1, c :: rest =>
    if isPySpace c then
      match rest.dropWhile isPySpace with
      | '.' :: tail => '.' :: dropWsBeforeDotGo fuel tail
      | _ => c :: dropWsBeforeDotGo fuel rest
    else c :: dropWsBeforeDotGo fuel rest

/-- Third pass of `normalize_spaces`. -/
def dropWsBeforeDot (s : List Char) : List Char :=
  dropWsBeforeDotGo s.length s

/-- Python `str.strip()`: remove leading and trailing whitespace. -/
def pyStrip (s : List Char) : List Char :=
  ((s.dropWhile isPySpace).reverse.dropWhile isPySpace).reverse

/-- The source's `normalize_spaces` (lines 13-19): the three regex passes
followed by `str.strip()`. -/
def normalize_spaces (name : List Char) : List Char :=
  pyStrip (dropWsBeforeDot (squashWsRuns (squashSpaceClass name)))

/-! ### Pattern Builder (`build_pattern`, source lines 21-48)

The patterns this program compiles are concatenations of single-character
atoms: an escaped literal character (`re.escape`), the hyphen class, or the
space class.  A compiled pattern is that atom list plus the IGNORECASE
flag.  Case-insensitive matching of literals is modelled by ASCII case
folding (`Char.toLower`), which is exact for the ASCII letters exercised
here. -/

/-- One atom of a compiled pattern: an escaped literal character, the
hyphen character class, or the space character class. -/
inductive CClass
  | lit (c : Char)
  | hyph
  | sp
deriving DecidableEq

/-- A compiled pattern: `re.compile` of a concatenation of atoms, with the
optional `re.IGNORECASE` flag. -/
structure Pattern where
  atoms : List CClass
  ignoreCase : Bool
deriving DecidableEq

/-- Matching of one literal character, honouring the case flag. -/
def litMatches (ic : Bool) (a c : Char) : Bool :=
  if ic then a.toLower == c.toLower else a == c

/-- Which characters an atom matches. -/
def classMatches (ic : Bool) : CClass → Char → Bool
  | CClass.lit a, c => litMatches ic a c
  | CClass.hyph, c => hyphenChars.contains c
  | CClass.sp, c => isPySpace c || c == nbsp || c == nnbsp

/-- Does the atom list match a prefix of `s` (consuming one character per
atom)? -/
def matchesHere (ic : Bool) : List CClass → List Char → Bool
  | [], _ => true
  | _ :: _, [] => false
  | a :: as, c :: cs => classMatches ic a c && matchesHere ic as cs

/-- Python `pattern.search(name)` viewed as a Boolean: does the pattern
match at some position of `s` (the position after the last character
included)? -/
def hasMatch (p : Pattern) : List Char → Bool
  | [] => matchesHere p.ignoreCase p.atoms []
  | c :: cs => matchesHere p.ignoreCase p.atoms (c :: cs) || hasMatch p cs

/-- Character-wise model of `unicodedata.normalize("NFKC", s)`.  It applies
the standard compatibility mappings of the whitespace and hyphen code
points this tool manipulates (non-breaking hyphen to hyphen, small and
fullwidth hyphen-minus to hyphen-minus, the fixed-width and no-break spaces
to ASCII space) and is the identity elsewhere; this is exact for strings of
NFKC-invariant characters, which includes all of ASCII. -/
def nfkcChar (c : Char) : List Char :=
  if c == '‑' then ['‐']
  else if c == '﹣' then ['-']
  else if c == '－' then ['-']
  else if c == nbsp then [' ']
  else if c == nnbsp then [' ']
  else if 0x2000 ≤ c.toNat && c.toNat ≤ 0x200A then [' ']
  else if c.toNat == 0x205F then [' ']
  else if c.toNat == 0x3000 then [' ']
  else [c]

/-- NFKC normalization of a string (character-wise, see `nfkcChar`). -/
def nfkc (s : List Char) : List Char :=
  s.flatMap nfkcChar

/-- The loose branch of `build_pattern` (lines 37-44), per character of the
normalized phrase: a character of the nine-hyphen string becomes the hyphen
class, a character with `ch.isspace()` or equal to NBSP or narrow NBSP
becomes the space class, anything else is escaped literally. -/
def looseAtom (c : Char) : CClass :=
  if hyphenChars.contains c then CClass.hyph
  else if isPySpace c || c == nbsp || c == nnbsp then CClass.sp
  else CClass.lit c

/-- The source's `build_pattern` (lines 21-48).  Non-loose: the phrase is
matched literally (`re.escape`), honouring the case flag.  Loose: the
phrase is first NFKC-normalized, then compiled character by character via
`looseAtom`. -/
def build_pattern (phrase : List Char) (ignore_case loose : Bool) : Pattern :=
  if loose then
    Pattern.mk ((nfkc phrase).map looseAtom) ignore_case
  else
    Pattern.mk (phrase.map CClass.lit) ignore_case

/-! ### `pattern.sub` (used by `propose_new_name`, source lines 50-53)

Python's `Pattern.sub` with a string replacement first parses the
replacement as a substitution template (backslash escapes and group
references are expanded; an invalid template raises `re.error` even when
nothing matches), then scans the subject left to right, replacing each
leftmost non-overlapping match.  The patterns compiled by `build_pattern`
contain no groups, so the only valid group reference is the whole match,
group 0. -/

/-- One item of a parsed replacement template: a literal character, or a
reference to group 0 (the whole match). -/
inductive TItem
  | lit (c : Char)
  | group0
deriving DecidableEq

/-- Is `c` an octal digit? -/
def octDigit (c : Char) : Bool :=
  '0' ≤ c && c ≤ '7'

/-- Value of an octal digit. -/
def octVal (c : Char) : Nat :=
  c.toNat - '0'.toNat

/-- Python's replacement-template letter escapes (the `ESCAPES` table minus
the backslash itself). -/
def escMap (c : Char) : Option Char :=
  if c == 'a' then some (Char.ofNat 7)
  else if c == 'b' then some (Char.ofNat 8)
  else if c == 'f' then some (Char.ofNat 12)
  else if c == 'n' then some (Char.ofNat 10)
  else if c == 'r' then some (Char.ofNat 13)
  else if c == 't' then some (Char.ofNat 9)
  else if c == 'v' then some (Char.ofNat 11)
  else none

/-- Parse one backslash escape of a replacement template (the argument is
the text after the backslash), for a pattern with zero groups.  Returns the
produced items and the unconsumed rest, or `none` where Python raises:
a trailing backslash, a malformed or non-zero group reference, an unknown
ASCII-letter escape, or an out-of-range octal escape.  A backslash before
any other character keeps both characters. -/
def parseEscape : List Char → Option (List TItem × List Char)
  | [] => none
  | 'g' :: rest =>
    match rest with
    | '<' :: r2 =>
      match r2.dropWhile (fun c => !(c == '>')) with
      | _ :: r3 =>
        (let name := r2.takeWhile (fun c => !(c == '>'))
         if name.isEmpty then none
         else if name.all Char.isDigit then
           if name.all (fun c => c == '0') then some ([TItem.group0], r3) else none
         else none)
      | [] => none
    | _ => none
  | '0' :: rest =>
    match rest with
    | a :: b :: r2 =>
      if octDigit a && octDigit b then
        some ([TItem.lit (Char.ofNat ((octVal a * 8 + octVal b) % 256))], r2)
      else if octDigit a then
        some ([TItem.lit (Char.ofNat (octVal a))], b :: r2)
      else some ([TItem.lit (Char.ofNat 0)], rest)
    | [a] =>
      if octDigit a then some ([TItem.lit (Char.ofNat (octVal a))], [])
      else some ([TItem.lit (Char.ofNat 0)], rest)
    | [] => some ([TItem.lit (Char.ofNat 0)], [])
  | c :: rest =>
    if c.isDigit then
      match rest with
      | d2 :: r2 =>
        if d2.isDigit then
          match r2 with
          | d3 :: r3 =>
            if octDigit c && octDigit d2 && octDigit d3 then
              (let v := octVal c * 64 + octVal d2 * 8 + octVal d3
               if v ≤ 255 then some ([TItem.lit (Char.ofNat v)], r3) else none)
            else none
          | [] => none
        else none
      | [] => none
    else
      match escMap c with
      | some e => some ([TItem.lit e], rest)
      | none =>
        if c == '\\' then some ([TItem.lit '\\'], rest)
        else if c.isAlpha then none
        else some ([TItem.lit '\\', TItem.lit c], rest)

/-- Parse a whole replacement template (fuel-indexed; the fuel is the
length of the text, which every step strictly decreases, so the zero-fuel
branch is unreachable). -/
def parseTemplateGo : Nat → List Char → Option (List TItem)
  | _, [] => some []
  | 0, _ :: _ => none
  | fuel + 1, c :: rest =>
    if c == '\\' then
      match parseEscape rest with
      | none => none
      | some (items, r2) =>
        match parseTemplateGo fuel r2 with
        | none => none
        | some t => some (items ++ t)
    else
      match parseTemplateGo fuel rest with
      | none => none
      | some t => some (TItem.lit c :: t)

/-- Parse a replacement string as a substitution template. -/
def parseTemplate (repl : List Char) : Option (List TItem) :=
  parseTemplateGo repl.length repl

/-- Expand a parsed template at a match (group 0 is the matched text). -/
def expand (matched : List Char) : List TItem → List Char
  | [] => []
  | TItem.lit c :: rest => c :: expand matched rest
  | TItem.group0 :: rest => matched ++ expand matched rest

/-- The scan of `pattern.sub`: left to right, each leftmost non-overlapping
match is replaced by the expanded template.  A pattern with no atoms
matches the empty string at every position (Python 3.7 semantics).  Fuel is
initialised to the subject length; zero-fuel fallback is unreachable. -/
def pySubGo (p : Pattern) (t : List TItem) : Nat → List Char → List Char
  | _, [] => if p.atoms.isEmpty then expand [] t else []
  | 0, _ :: _ => []
  | fuel + 1, c :: rest =>
    if p.atoms.isEmpty then expand [] t ++ c :: pySubGo p t fuel rest
    else if matchesHere p.ignoreCase p.atoms (c :: rest) then
      expand ((c :: rest).take p.atoms.length) t ++
        pySubGo p t fuel ((c :: rest).drop p.atoms.length)
    else c :: pySubGo p t fuel rest

/-- Python `pattern.sub(template, s)` for an already-parsed template. -/
def pySub (p : Pattern) (t : List TItem) (s : List Char) : List Char :=
  pySubGo p t s.length s

/-! ### Rename Planner (`propose_new_name` and `collect_changes`,
source lines 50-70) -/

/-- The substitution mode. -/
inductive Mode
  | delete
  | replace
deriving DecidableEq

/-- The source's `propose_new_name` (lines 50-53): apply
`pattern.sub("" if mode == "delete" else replacement, name)` and tidy the
result with `normalize_spaces`.  Returns `none` where Python raises,
namely when the replacement is an invalid substitution template. -/
def propose_new_name (name : List Char) (p : Pattern) (mode : Mode)
    (replacement : List Char) : Option (List Char) :=
  match parseTemplate (match mode with | Mode.delete => [] | Mode.replace => replacement) with
  | none => none
  | some t => some (normalize_spaces (pySub p t name))

/-- The source's `collect_changes` (lines 61-70) over the enumerated file
names: propose a new name for each file and record a (current, proposed)
pair whenever they differ, together with the total number of files checked.
Returns `none` where Python raises (propagating `propose_new_name`). -/
def collect_changes (files : List (List Char)) (p : Pattern) (mode : Mode)
    (repl : List Char) : Option (List (List Char × List Char) × Nat) :=
  match files with
  | [] => some ([], 0)
  | f :: rest =>
    match propose_new_name f p mode repl with
    | none => none
    | some new =>
      match collect_changes rest p mode repl with
      | none => none
      | some (plan, total) =>
        some ((if !(new == f) then (f, new) :: plan else plan), total + 1)

/-! ### Execution Engine (source lines 154-176) and Safety Gate
(`is_dangerous_root`, lines 72-77; `main`, lines 120-134)

The filesystem is modelled as the list of existing path names.  Renaming a
file removes its source name and adds its destination name; the model is
restricted to the single-directory (non-recursive) case, where a plan
entry's paths are plain file names.  A rename of a missing source raises in
Python and is caught per file; other OS failures are outside the model. -/

/-- What happened to one plan entry during the execution loop. -/
inductive Outcome
  | collision
  | renamed
  | error
  | preview
deriving DecidableEq

/-- One iteration of the loop of `main` (lines 161-176): if the destination
exists and differs from the source, report a collision and skip; otherwise
rename when `apply` is set (an exception is caught and counted as a
per-file error); otherwise report a dry-run preview. -/
def runStep (fs : List (List Char)) (apply : Bool) (e : List Char × List Char) :
    List (List Char) × Outcome :=
  if fs.contains e.2 && !(e.2 == e.1) then (fs, Outcome.collision)
  else if apply then
    (if fs.contains e.1 then (e.2 :: fs.erase e.1, Outcome.renamed)
     else (fs, Outcome.error))
  else (fs, Outcome.preview)

/-- The full execution loop over a plan, in plan order, threading the live
filesystem through the steps. -/
def runPlan (apply : Bool) : List (List Char) → List (List Char × List Char) →
    List (List Char) × List Outcome
  | fs, [] => (fs, [])
  | fs, e :: rest =>
    match runStep fs apply e with
    | (fs2, o) =>
      match runPlan apply fs2 rest with
      | (fs3, os) => (fs3, o :: os)

/-- The canonical path of the filesystem root. -/
def rootPath : List Char := ['/']

/-- The source's `is_dangerous_root` (lines 72-77): `target.resolve()` is
modelled by its result, `none` when resolution raises.  A resolution
failure is treated as not dangerous (fail open); otherwise the resolved
path is compared with the filesystem root and the home directory. -/
def is_dangerous_root (resolved : Option (List Char)) (home : List Char) : Bool :=
  match resolved with
  | none => false
  | some r => r == rootPath || r == home

/-- Outcome of a run of `main`: exit 1 on an invalid target directory,
exit 2 on a Safety-Gate refusal (before any enumeration), a crash on an
uncaught exception, or completion carrying the plan, the checked-file
count, and the execution result. -/
inductive RunResult
  | badDir
  | refused
  | crashed
  | completed (plan : List (List Char × List Char)) (total : Nat)
      (finalFs : List (List Char)) (outcomes : List Outcome)
deriving DecidableEq

/-- Process exit code of a run (a crash exits like an error, code 1). -/
def exitCode : RunResult → Nat
  | RunResult.badDir => 1
  | RunResult.refused => 2
  | RunResult.crashed => 1
  | RunResult.completed _ _ _ _ => 0

/-- The checked prefix and pipeline of `main` (lines 120-176): the
directory validity check (exit 1), the Safety Gate (exit 2, before any
enumeration), then planning followed by the execution loop. -/
def mainRun (dirOk : Bool) (resolved : Option (List Char)) (home : List Char)
    (force : Bool) (files : List (List Char)) (p : Pattern) (mode : Mode)
    (repl : List Char) (apply : Bool) (fs : List (List Char)) : RunResult :=
  if !dirOk then RunResult.badDir
  else if is_dangerous_root resolved home && !force then RunResult.refused
  else
    match collect_changes files p mode repl with
    | none => RunResult.crashed
    | some (plan, total) =>
      match runPlan apply fs plan with
      | (fs2, os) => RunResult.completed plan total fs2 os

/-- Final filesystem of a run, when the run reached the execution loop. -/
def resultFs : RunResult → Option (List (List Char))
  | RunResult.completed _ _ fs2 _ => some fs2
  | _ => none

/-! ### Specification-side definitions

The following definitions are written from the words of the specification
(not from the source); they are used to compare the code against the
spec's normalizer description, its space-equivalence set, and its verbatim
replacement wording. -/

/-- Modelled from the spec: the spec claims the spacing characters are
exactly ASCII space, no-break space and narrow no-break space. -/
def claimSpacingChar (c : Char) : Bool :=
  c == ' ' || c == nbsp || c == nnbsp

/-- Step 1 of the spec's normalizer contract, with an arbitrary spacing
predicate: replace each spacing character by a single ASCII space. -/
def mapWsToSpace (spacing : Char → Bool) (s : List Char) : List Char :=
  s.map (fun c => if spacing c then ' ' else c)

/-- Step 2 of the spec's normalizer contract: collapse each run of two or
more resulting ASCII spaces to one (the flag records whether the previous
character was a space). -/
def specCollapse (prevSpace : Bool) : List Char → List Char
  | [] => []
  | c :: rest =>
    if c == ' ' then
      (if prevSpace then specCollapse true rest
       else ' ' :: specCollapse true rest)
    else c :: specCollapse false rest

/-- Step 3 of the spec's normalizer contract: remove a space immediately
preceding a period. -/
def removeSpaceBeforeDot : List Char → List Char
  | [] => []
  | c :: rest =>
    if c == ' ' && rest.head? == some '.' then removeSpaceBeforeDot rest
    else c :: removeSpaceBeforeDot rest

/-- Modelled from the spec: the four-step normalizer contract of section
4.1, parametrised by the spacing-character predicate, finished by
stripping leading and trailing whitespace. -/
def specNormalize (spacing : Char → Bool) (s : List Char) : List Char :=
  pyStrip (removeSpaceBeforeDot (specCollapse false (mapWsToSpace spacing s)))

/-- Modelled from the spec: the normalizer as claimed, with the spacing
characters being exactly the three listed ones. -/
def normalizeSpacesClaim (s : List Char) : List Char :=
  specNormalize claimSpacingChar s

/-- Modelled from the spec (amended): the per-character matching relation
of a loose pattern: a hyphen-equivalent phrase character matches exactly
the nine-element hyphen set, a whitespace-equivalent phrase character
matches exactly the Python whitespace set together with NBSP and narrow
NBSP, and any other phrase character matches literally (honouring the case
flag). -/
def looseCharRel (ic : Bool) (a c : Char) : Bool :=
  if hyphenChars.contains a then hyphenChars.contains c
  else if isPySpace a || a == nbsp || a == nnbsp then
    isPySpace c || c == nbsp || c == nnbsp
  else litMatches ic a c

/-- Modelled from the spec: the proposal of the Rename Planner as claimed
by C2, with the replacement text inserted verbatim (every character taken
literally, no template expansion). -/
def proposeVerbatimClaim (name : List Char) (p : Pattern)
    (replacement : List Char) : List Char :=
  normalize_spaces (pySub p (replacement.map TItem.lit) name)

/-- The dash-variant test filename of the spec's loose-matching property:
the text "A (Z", then a dash character, then "Library) B.pdf". -/
def dashName (d : Char) : List Char :=
  ['A', ' ', '(', 'Z', d, 'L', 'i', 'b', 'r', 'a', 'r', 'y', ')', ' ', 'B', '.', 'p', 'd', 'f']

/-- The test phrase "(Z-Library)" with a plain hyphen-minus. -/
def zPhrase : List Char :=
  ['(', 'Z', '-', 'L', 'i', 'b', 'r', 'a', 'r', 'y', ')']

/-- Every whitespace character of the string is the ASCII space. -/
def WsOnlySpace (l : List Char) : Prop :=
  ∀ c ∈ l, isPySpace c = true → c = ' '

/-- No two adjacent whitespace characters. -/
def NoTwoWs (l : List Char) : Prop :=
  l.Chain' (fun a b => ¬(isPySpace a = true ∧ isPySpace b = true))

/-- No whitespace character immediately before a period. -/
def NoWsDot (l : List Char) : Prop :=
  l.Chain' (fun a b => ¬(isPySpace a = true ∧ b = '.'))

/-- Neither the first nor the last character is whitespace. -/
def NoEdgeWs (l : List Char) : Prop :=
  (∀ c, l.head? = some c → isPySpace c = false) ∧
  (∀ c, l.getLast? = some c → isPySpace c = false)

end Renamer

namespace Renamer

/-! ### Helper lemmas -/

theorem length_dropWhile_le (p : Char → Bool) (l : List Char) :
    (l.dropWhile p).length ≤ l.length :=
  (List.dropWhile_suffix p).sublist.length_le

theorem dropWhile_head_false (p : Char → Bool) :
    ∀ (l : List Char) (c : Char) (cs : List Char),
      l.dropWhile p = c :: cs → p c = false
  | [], c, cs, h => by simp at h
  | x :: xs, c, cs, h => by
    by_cases hx : p x = true
    · rw [List.dropWhile_cons_of_pos hx] at h
      exact dropWhile_head_false p xs c cs h
    · rw [List.dropWhile_cons_of_neg hx] at h
      cases h
      simpa using hx

theorem dropWhile_of_head_false (p : Char → Bool) (c : Char) (cs : List Char)
    (h : p c = false) : (c :: cs).dropWhile p = c :: cs :=
  List.dropWhile_cons_of_neg (by simp [h])

theorem spacesClassChar_eq_isPySpace (c : Char) :
    spacesClassChar c = isPySpace c := by
  unfold spacesClassChar
  cases h1 : c == nbsp with
  | true =>
    have hc : c = nbsp := beq_iff_eq.mp h1
    subst hc
    decide
  | false =>
    cases h2 : c == nnbsp with
    | true =>
      have hc : c = nnbsp := beq_iff_eq.mp h2
      subst hc
      decide
    | false => simp [h1, h2]

theorem isPySpace_space : isPySpace ' ' = true := by decide

theorem ne_space_of_not_ws (c : Char) (h : isPySpace c = false) : (c == ' ') = false := by
  cases hc : c == ' ' with
  | true =>
    have : c = ' ' := beq_iff_eq.mp hc
    subst this
    exact absurd h (by decide)
  | false => rfl

theorem wsOnlySpace_cons (c : Char) (l : List Char) :
    WsOnlySpace (c :: l) ↔ (isPySpace c = true → c = ' ') ∧ WsOnlySpace l := by
  constructor
  · intro h
    exact ⟨h c (List.mem_cons_self c l), fun x hx => h x (List.mem_cons_of_mem c hx)⟩
  · intro h x hx
    rcases List.mem_cons.mp hx with rfl | hx
    · exact h.1
    · exact h.2 x hx

theorem noTwoWs_tail (c : Char) (l : List Char) (h : NoTwoWs (c :: l)) : NoTwoWs l :=
  (List.chain'_cons'.mp h).2

theorem noWsDot_tail (c : Char) (l : List Char) (h : NoWsDot (c :: l)) : NoWsDot l :=
  (List.chain'_cons'.mp h).2

theorem squashSpaceClassGo_inv :
    ∀ (fuel : Nat) (s : List Char), s.length ≤ fuel →
      WsOnlySpace (squashSpaceClassGo fuel s) ∧ NoTwoWs (squashSpaceClassGo fuel s) ∧
      (∀ c cs, s = c :: cs → spacesClassChar c = false →
        (squashSpaceClassGo fuel s).head? = some c) := by
  intro fuel
  induction fuel with
  | zero =>
    intro s hs
    have hnil : s = [] := List.length_eq_zero.mp (Nat.le_zero.mp hs)
    subst hnil
    refine ⟨?_, ?_, ?_⟩
    · intro x hx; simp [squashSpaceClassGo] at hx
    · simp [squashSpaceClassGo, NoTwoWs]
    · intro c cs h; cases h
  | succ f ih =>
    intro s hs
    cases s with
    | nil =>
      refine ⟨?_, ?_, ?_⟩
      · intro x hx; simp [squashSpaceClassGo] at hx
      · simp [squashSpaceClassGo, NoTwoWs]
      · intro c cs h; cases h
    | cons c cs =>
      have hcs : cs.length ≤ f := Nat.le_of_succ_le_succ (by simpa using hs)
      by_cases hc : spacesClassChar c = true
      · have heq : squashSpaceClassGo (f + 1) (c :: cs) =
            ' ' :: squashSpaceClassGo f (cs.dropWhile spacesClassChar) := by
          simp [squashSpaceClassGo, hc]
        have hlen : (cs.dropWhile spacesClassChar).length ≤ f :=
          le_trans (length_dropWhile_le _ _) hcs
        obtain ⟨ihW, ihC, ihH⟩ := ih (cs.dropWhile spacesClassChar) hlen
        rw [heq]
        refine ⟨?_, ?_, ?_⟩
        · rw [wsOnlySpace_cons]; exact ⟨fun _ => rfl, ihW⟩
        · rw [NoTwoWs, List.chain'_cons']
          refine ⟨?_, ihC⟩
          intro b hb
          cases hz : cs.dropWhile spacesClassChar with
          | nil =>
            rw [hz] at hb
            simp [squashSpaceClassGo] at hb
          | cons z zs =>
            have hznot : spacesClassChar z = false := dropWhile_head_false _ cs z zs hz
            have hhead := ihH z zs hz hznot
            rw [hhead] at hb
            have hbz : z = b := by simpa using hb
            cases hbz
            have hwz : isPySpace b = false := by
              rw [← spacesClassChar_eq_isPySpace]; exact hznot
            rintro ⟨_, h2⟩
            rw [hwz] at h2
            cases h2
        · intro c0 cs0 heq0 h0
          cases heq0
          rw [hc] at h0
          cases h0
      · have hc' : spacesClassChar c = false := by simpa using hc
        have hcw : isPySpace c = false := by
          rw [← spacesClassChar_eq_isPySpace]; exact hc'
        have heq : squashSpaceClassGo (f + 1) (c :: cs) =
            c :: squashSpaceClassGo f cs := by
          simp [squashSpaceClassGo, hc']
        obtain ⟨ihW, ihC, _⟩ := ih cs hcs
        rw [heq]
        refine ⟨?_, ?_, ?_⟩
        · rw [wsOnlySpace_cons]
          refine ⟨?_, ihW⟩
          intro hw
          rw [hcw] at hw
          cases hw
        · rw [NoTwoWs, List.chain'_cons']
          refine ⟨?_, ihC⟩
          rintro b _ ⟨h1, _⟩
          rw [hcw] at h1
          cases h1
        · intro c0 cs0 heq0 _
          cases heq0
          rfl

theorem squashSpaceClassGo_id :
    ∀ (fuel : Nat) (s : List Char), s.length ≤ fuel → WsOnlySpace s → NoTwoWs s →
      squashSpaceClassGo fuel s = s := by
  intro fuel
  induction fuel with
  | zero =>
    intro s hs _ _
    have hnil : s = [] := List.length_eq_zero.mp (Nat.le_zero.mp hs)
    subst hnil
    rfl
  | succ f ih =>
    intro s hs hW hC
    cases s with
    | nil => rfl
    | cons c cs =>
      have hcs : cs.length ≤ f := Nat.le_of_succ_le_succ (by simpa using hs)
      by_cases hc : spacesClassChar c = true
      · have hws : isPySpace c = true := by
          rw [← spacesClassChar_eq_isPySpace]; exact hc
        have hsp : c = ' ' := hW c (List.mem_cons_self c cs) hws
        have hdrop : cs.dropWhile spacesClassChar = cs := by
          cases cs with
          | nil => rfl
          | cons b bs =>
            have hrel := (List.chain'_cons'.mp hC).1 b (by simp)
            have hwb : isPySpace b = false := by
              cases hb : isPySpace b with
              | true => exact absurd ⟨hws, hb⟩ hrel
              | false => rfl
            exact dropWhile_of_head_false _ b bs
              (by rw [spacesClassChar_eq_isPySpace]; exact hwb)
        have heq : squashSpaceClassGo (f + 1) (c :: cs) =
            ' ' :: squashSpaceClassGo f (cs.dropWhile spacesClassChar) := by
          simp [squashSpaceClassGo, hc]
        rw [heq, hdrop, ih cs hcs (wsOnlySpace_cons c cs |>.mp hW).2 (noTwoWs_tail c cs hC), hsp]
      · have hc' : spacesClassChar c = false := by simpa using hc
        have heq : squashSpaceClassGo (f + 1) (c :: cs) =
            c :: squashSpaceClassGo f cs := by
          simp [squashSpaceClassGo, hc']
        rw [heq, ih cs hcs (wsOnlySpace_cons c cs |>.mp hW).2 (noTwoWs_tail c cs hC)]

theorem squashWsRunsGo_id :
    ∀ (fuel : Nat) (s : List Char), s.length ≤ fuel → NoTwoWs s →
      squashWsRunsGo fuel s = s := by
  intro fuel
  induction fuel with
  | zero =>
    intro s hs _
    have hnil : s = [] := List.length_eq_zero.mp (Nat.le_zero.mp hs)
    subst hnil
    rfl
  | succ f ih =>
    intro s hs hC
    cases s with
    | nil => rfl
    | cons c cs =>
      have hcs : cs.length ≤ f := Nat.le_of_succ_le_succ (by simpa using hs)
      have htail := ih cs hcs (noTwoWs_tail c cs hC)
      cases cs with
      | nil => simp [squashWsRunsGo]
      | cons b bs =>
        have hcond : (isPySpace c && isPySpace b) = false := by
          cases hw : isPySpace c with
          | false => rfl
          | true =>
            have hrel := (List.chain'_cons'.mp hC).1 b (by simp)
            cases hb : isPySpace b with
            | true => exact absurd ⟨hw, hb⟩ hrel
            | false => simp [hb]
        have heq : squashWsRunsGo (f + 1) (c :: b :: bs) =
            c :: squashWsRunsGo f (b :: bs) := by
          simp [squashWsRunsGo, hcond]
        rw [heq, htail]

theorem dropWhile_ws_tail_eq (c : Char) (cs : List Char) (hC : NoTwoWs (c :: cs))
    (hw : isPySpace c = true) : cs.dropWhile isPySpace = cs := by
  cases cs with
  | nil => rfl
  | cons b bs =>
    have hrel := (List.chain'_cons'.mp hC).1 b (by simp)
    have hb : isPySpace b = false := by
      cases hb : isPySpace b with
      | true => exact absurd ⟨hw, hb⟩ hrel
      | false => rfl
    exact dropWhile_of_head_false _ b bs hb

theorem dropWsBeforeDotGo_id :
    ∀ (fuel : Nat) (s : List Char), s.length ≤ fuel → NoTwoWs s → NoWsDot s →
      dropWsBeforeDotGo fuel s = s := by
  intro fuel
  induction fuel with
  | zero =>
    intro s hs _ _
    have hnil : s = [] := List.length_eq_zero.mp (Nat.le_zero.mp hs)
    subst hnil
    rfl
  | succ f ih =>
    intro s hs hC hD
    cases s with
    | nil => rfl
    | cons c cs =>
      have hcs : cs.length ≤ f := Nat.le_of_succ_le_succ (by simpa using hs)
      have hIH := ih cs hcs (noTwoWs_tail c cs hC) (noWsDot_tail c cs hD)
      cases hw : isPySpace c with
      | true =>
        have hdrop := dropWhile_ws_tail_eq c cs hC hw
        have heq : dropWsBeforeDotGo (f + 1) (c :: cs) =
            (match cs.dropWhile isPySpace with
             | '.' :: tail => '.' :: dropWsBeforeDotGo f tail
             | _ => c :: dropWsBeforeDotGo f cs) := by
          simp [dropWsBeforeDotGo, hw]
        rw [heq, hdrop]
        split
        · exfalso
          have hdot := (List.chain'_cons'.mp hD).1 '.' (by simp)
          exact hdot ⟨hw, rfl⟩
        · rw [hIH]
      | false =>
        have heq : dropWsBeforeDotGo (f + 1) (c :: cs) =
            c :: dropWsBeforeDotGo f cs := by
          simp [dropWsBeforeDotGo, hw]
        rw [heq, hIH]

theorem dropWsBeforeDotGo_spec :
    ∀ (fuel : Nat) (s : List Char), s.length ≤ fuel → WsOnlySpace s → NoTwoWs s →
      dropWsBeforeDotGo fuel s = removeSpaceBeforeDot s := by
  intro fuel
  induction fuel with
  | zero =>
    intro s hs _ _
    have hnil : s = [] := List.length_eq_zero.mp (Nat.le_zero.mp hs)
    subst hnil
    rfl
  | succ f ih =>
    intro s hs hW hC
    cases s with
    | nil => rfl
    | cons c cs =>
      have hcs : cs.length ≤ f := Nat.le_of_succ_le_succ (by simpa using hs)
      have hWt : WsOnlySpace cs := (wsOnlySpace_cons c cs |>.mp hW).2
      cases hw : isPySpace c with
      | true =>
        have hsp : c = ' ' := hW c (List.mem_cons_self c cs) hw
        have hdrop := dropWhile_ws_tail_eq c cs hC hw
        have heq : dropWsBeforeDotGo (f + 1) (c :: cs) =
            (match cs.dropWhile isPySpace with
             | '.' :: tail => '.' :: dropWsBeforeDotGo f tail
             | _ => c :: dropWsBeforeDotGo f cs) := by
          simp [dropWsBeforeDotGo, hw]
        rw [heq, hdrop]
        split
        · rename_i tail
          have htl : tail.length ≤ f := Nat.le_of_succ_le (by simpa using hcs)
          have hWtt : WsOnlySpace tail := (wsOnlySpace_cons '.' tail |>.mp hWt).2
          have hCtt : NoTwoWs tail := noTwoWs_tail '.' tail (noTwoWs_tail c _ hC)
          rw [ih tail htl hWtt hCtt, hsp]
          simp [removeSpaceBeforeDot]
        · rename_i hne
          rw [ih cs hcs hWt (noTwoWs_tail c cs hC)]
          have hcond : (c == ' ' && cs.head? == some '.') = false := by
            cases cs with
            | nil => simp
            | cons b bs =>
              have hb : ¬(b = '.') := by
                intro hbd
                subst hbd
                exact hne bs rfl
              have hbeq : (b == '.') = false := by
                cases hbeq : b == '.' with
                | true => exact absurd (beq_iff_eq.mp hbeq) hb
                | false => rfl
              simp [hbeq]
          rw [show removeSpaceBeforeDot (c :: cs) = c :: removeSpaceBeforeDot cs from by
            simp [removeSpaceBeforeDot, hcond]]
      | false =>
        have heq : dropWsBeforeDotGo (f + 1) (c :: cs) =
            c :: dropWsBeforeDotGo f cs := by
          simp [dropWsBeforeDotGo, hw]
        have hne : (c == ' ') = false := ne_space_of_not_ws c hw
        rw [heq, ih cs hcs hWt (noTwoWs_tail c cs hC)]
        rw [show removeSpaceBeforeDot (c :: cs) = c :: removeSpaceBeforeDot cs from by
          simp [removeSpaceBeforeDot, hne]]

theorem dropWsBeforeDotGo_inv :
    ∀ (fuel : Nat) (s : List Char), s.length ≤ fuel → WsOnlySpace s → NoTwoWs s →
      WsOnlySpace (dropWsBeforeDotGo fuel s) ∧ NoTwoWs (dropWsBeforeDotGo fuel s) ∧
      NoWsDot (dropWsBeforeDotGo fuel s) ∧
      (∀ c cs, s = c :: cs → isPySpace c = false →
        (dropWsBeforeDotGo fuel s).head? = some c) := by
  intro fuel
  induction fuel with
  | zero =>
    intro s hs _ _
    have hnil : s = [] := List.length_eq_zero.mp (Nat.le_zero.mp hs)
    subst hnil
    refine ⟨?_, ?_, ?_, ?_⟩
    · intro x hx; simp [dropWsBeforeDotGo] at hx
    · simp [dropWsBeforeDotGo, NoTwoWs]
    · simp [dropWsBeforeDotGo, NoWsDot]
    · intro c cs h; cases h
  | succ f ih =>
    intro s hs hW hC
    cases s with
    | nil =>
      refine ⟨?_, ?_, ?_, ?_⟩
      · intro x hx; simp [dropWsBeforeDotGo] at hx
      · simp [dropWsBeforeDotGo, NoTwoWs]
      · simp [dropWsBeforeDotGo, NoWsDot]
      · intro c cs h; cases h
    | cons c cs =>
      have hcs : cs.length ≤ f := Nat.le_of_succ_le_succ (by simpa using hs)
      have hWt : WsOnlySpace cs := (wsOnlySpace_cons c cs |>.mp hW).2
      have hCt : NoTwoWs cs := noTwoWs_tail c cs hC
      cases hw : isPySpace c with
      | true =>
        have hsp : c = ' ' := hW c (List.mem_cons_self c cs) hw
        have hdrop := dropWhile_ws_tail_eq c cs hC hw
        have heq : dropWsBeforeDotGo (f + 1) (c :: cs) =
            (match cs.dropWhile isPySpace with
             | '.' :: tail => '.' :: dropWsBeforeDotGo f tail
             | _ => c :: dropWsBeforeDotGo f cs) := by
          simp [dropWsBeforeDotGo, hw]
        rw [heq, hdrop]
        split
        · rename_i tail
          have htl : tail.length ≤ f := Nat.le_of_succ_le (by simpa using hcs)
          obtain ⟨iW, iC, iD, _⟩ := ih tail htl
            ((wsOnlySpace_cons '.' tail |>.mp hWt).2) (noTwoWs_tail '.' tail hCt)
          refine ⟨?_, ?_, ?_, ?_⟩
          · rw [wsOnlySpace_cons]
            exact ⟨fun h => absurd h (by decide), iW⟩
          · rw [NoTwoWs, List.chain'_cons']
            refine ⟨?_, iC⟩
            rintro b _ ⟨h1, _⟩
            exact absurd h1 (by decide)
          · rw [NoWsDot, List.chain'_cons']
            refine ⟨?_, iD⟩
            rintro b _ ⟨h1, _⟩
            exact absurd h1 (by decide)
          · intro c0 cs0 heq0 h0
            cases heq0
            rw [hw] at h0
            cases h0
        · rename_i hne
          obtain ⟨iW, iC, iD, iH⟩ := ih cs hcs hWt hCt
          have hhead : ∀ b, (dropWsBeforeDotGo f cs).head? = some b →
              isPySpace b = false ∧ ¬(b = '.') := by
            intro b hb
            cases cs with
            | nil => simp [dropWsBeforeDotGo] at hb
            | cons b0 bs =>
              have hrel := (List.chain'_cons'.mp hC).1 b0 (by simp)
              have hwb0 : isPySpace b0 = false := by
                cases hb0 : isPySpace b0 with
                | true => exact absurd ⟨hw, hb0⟩ hrel
                | false => rfl
              have := iH b0 bs rfl hwb0
              rw [this] at hb
              cases hb
              refine ⟨hwb0, ?_⟩
              intro hbd
              subst hbd
              exact hne bs rfl
          refine ⟨?_, ?_, ?_, ?_⟩
          · rw [wsOnlySpace_cons]
            exact ⟨fun _ => hsp, iW⟩
          · rw [NoTwoWs, List.chain'_cons']
            refine ⟨?_, iC⟩
            intro b hb
            rintro ⟨_, h2⟩
            have := (hhead b (by simpa using hb)).1
            rw [this] at h2
            cases h2
          · rw [NoWsDot, List.chain'_cons']
            refine ⟨?_, iD⟩
            intro b hb
            rintro ⟨_, h2⟩
            exact (hhead b (by simpa using hb)).2 h2
          · intro c0 cs0 heq0 h0
            cases heq0
            rw [hw] at h0
            cases h0
      | false =>
        have heq : dropWsBeforeDotGo (f + 1) (c :: cs) =
            c :: dropWsBeforeDotGo f cs := by
          simp [dropWsBeforeDotGo, hw]
        obtain ⟨iW, iC, iD, _⟩ := ih cs hcs hWt hCt
        rw [heq]
        refine ⟨?_, ?_, ?_, ?_⟩
        · rw [wsOnlySpace_cons]
          refine ⟨?_, iW⟩
          intro h0
          rw [hw] at h0
          cases h0
        · rw [NoTwoWs, List.chain'_cons']
          refine ⟨?_, iC⟩
          rintro b _ ⟨h1, _⟩
          rw [hw] at h1
          cases h1
        · rw [NoWsDot, List.chain'_cons']
          refine ⟨?_, iD⟩
          rintro b _ ⟨h1, _⟩
          rw [hw] at h1
          cases h1
        · intro c0 cs0 heq0 _
          cases heq0
          rfl

theorem pyStrip_wsOnly (l : List Char) (h : WsOnlySpace l) : WsOnlySpace (pyStrip l) := by
  intro c hc hw
  apply h c _ hw
  unfold pyStrip at hc
  have h1 : c ∈ (l.dropWhile isPySpace).reverse.dropWhile isPySpace :=
    List.mem_reverse.mp hc
  have h2 : c ∈ (l.dropWhile isPySpace).reverse :=
    (List.dropWhile_suffix _).sublist.subset h1
  have h3 : c ∈ l.dropWhile isPySpace := List.mem_reverse.mp h2
  exact (List.dropWhile_suffix _).sublist.subset h3

theorem pyStrip_chain (R : Char → Char → Prop) (l : List Char) (h : l.Chain' R) :
    (pyStrip l).Chain' R := by
  have h1 : (l.dropWhile isPySpace).Chain' R := h.suffix (List.dropWhile_suffix _)
  have h2 : ((l.dropWhile isPySpace).reverse).Chain' (flip R) :=
    List.chain'_reverse.mpr h1
  have h3 : (((l.dropWhile isPySpace).reverse).dropWhile isPySpace).Chain' (flip R) :=
    h2.suffix (List.dropWhile_suffix _)
  exact List.chain'_reverse.mpr h3

theorem pyStrip_noEdgeWs (l : List Char) : NoEdgeWs (pyStrip l) := by
  constructor
  · intro c hc
    unfold pyStrip at hc
    rw [List.head?_reverse] at hc
    have hune : (l.dropWhile isPySpace).reverse.dropWhile isPySpace ≠ [] := by
      intro h0
      rw [h0] at hc
      cases hc
    obtain ⟨w, hw⟩ :=
      List.dropWhile_suffix (l := (l.dropWhile isPySpace).reverse) isPySpace
    have hlast : (l.dropWhile isPySpace).reverse.getLast? = some c := by
      rw [← hw, List.getLast?_append_of_ne_nil w hune, hc]
    rw [List.getLast?_reverse] at hlast
    cases hht : l.dropWhile isPySpace with
    | nil => rw [hht] at hlast; cases hlast
    | cons x xs =>
      rw [hht] at hlast
      cases hlast
      exact dropWhile_head_false isPySpace l c xs hht
  · intro c hc
    unfold pyStrip at hc
    rw [List.getLast?_reverse] at hc
    cases hu : (l.dropWhile isPySpace).reverse.dropWhile isPySpace with
    | nil => rw [hu] at hc; cases hc
    | cons x xs =>
      rw [hu] at hc
      cases hc
      exact dropWhile_head_false isPySpace _ c xs hu

theorem pyStrip_id (l : List Char) (h : NoEdgeWs l) : pyStrip l = l := by
  have h1 : l.dropWhile isPySpace = l := by
    cases l with
    | nil => rfl
    | cons c cs => exact dropWhile_of_head_false _ c cs (h.1 c rfl)
  unfold pyStrip
  rw [h1]
  have h2 : l.reverse.dropWhile isPySpace = l.reverse := by
    cases hr : l.reverse with
    | nil => rfl
    | cons c cs =>
      refine dropWhile_of_head_false _ c cs (h.2 c ?_)
      rw [← List.head?_reverse, hr]
      rfl
  rw [h2, List.reverse_reverse]

theorem normalize_spaces_inv (s : List Char) :
    WsOnlySpace (normalize_spaces s) ∧ NoTwoWs (normalize_spaces s) ∧
    NoWsDot (normalize_spaces s) ∧ NoEdgeWs (normalize_spaces s) := by
  obtain ⟨aW, aC, _⟩ :=
    squashSpaceClassGo_inv s.length s (le_refl _)
  have hb : squashWsRuns (squashSpaceClass s) = squashSpaceClass s :=
    squashWsRunsGo_id _ _ (le_refl _) aC
  obtain ⟨cW, cC, cD, _⟩ :=
    dropWsBeforeDotGo_inv (squashSpaceClass s).length (squashSpaceClass s)
      (le_refl _) aW aC
  unfold normalize_spaces
  rw [hb]
  exact ⟨pyStrip_wsOnly _ cW, pyStrip_chain _ _ cC, pyStrip_chain _ _ cD,
    pyStrip_noEdgeWs _⟩

theorem normalize_spaces_idem (s : List Char) :
    normalize_spaces (normalize_spaces s) = normalize_spaces s := by
  obtain ⟨hW, hC, hD, hE⟩ := normalize_spaces_inv s
  show pyStrip (dropWsBeforeDot (squashWsRuns (squashSpaceClass (normalize_spaces s)))) =
    normalize_spaces s
  rw [show squashSpaceClass (normalize_spaces s) = normalize_spaces s from
    squashSpaceClassGo_id _ _ (le_refl _) hW hC]
  rw [show squashWsRuns (normalize_spaces s) = normalize_spaces s from
    squashWsRunsGo_id _ _ (le_refl _) hC]
  rw [show dropWsBeforeDot (normalize_spaces s) = normalize_spaces s from
    dropWsBeforeDotGo_id _ _ (le_refl _) hC hD]
  exact pyStrip_id _ hE

theorem specCollapse_skip (l : List Char) :
    specCollapse true (mapWsToSpace spacesClassChar l) =
      specCollapse false (mapWsToSpace spacesClassChar (l.dropWhile spacesClassChar)) := by
  induction l with
  | nil => rfl
  | cons x xs ih =>
    by_cases hx : spacesClassChar x = true
    · have hmap : mapWsToSpace spacesClassChar (x :: xs) =
          ' ' :: mapWsToSpace spacesClassChar xs := by
        simp [mapWsToSpace, hx]
      rw [hmap, List.dropWhile_cons_of_pos hx,
        show specCollapse true (' ' :: mapWsToSpace spacesClassChar xs) =
          specCollapse true (mapWsToSpace spacesClassChar xs) from by simp [specCollapse],
        ih]
    · have hx' : spacesClassChar x = false := by simpa using hx
      have hxs : ¬(x = ' ') := by
        intro h0
        subst h0
        exact absurd (by decide : spacesClassChar ' ' = true) (by simp [hx'])
      have hxbeq : (x == ' ') = false := by
        cases hb : x == ' ' with
        | true => exact absurd (beq_iff_eq.mp hb) hxs
        | false => rfl
      have hmap : mapWsToSpace spacesClassChar (x :: xs) =
          x :: mapWsToSpace spacesClassChar xs := by
        simp [mapWsToSpace, hx']
      rw [List.dropWhile_cons_of_neg (by simp [hx']), hmap]
      simp [specCollapse, hxbeq]

theorem squashSpaceClassGo_spec :
    ∀ (fuel : Nat) (s : List Char), s.length ≤ fuel →
      squashSpaceClassGo fuel s = specCollapse false (mapWsToSpace spacesClassChar s) := by
  intro fuel
  induction fuel with
  | zero =>
    intro s hs
    have hnil : s = [] := List.length_eq_zero.mp (Nat.le_zero.mp hs)
    subst hnil
    rfl
  | succ f ih =>
    intro s hs
    cases s with
    | nil => rfl
    | cons c cs =>
      have hcs : cs.length ≤ f := Nat.le_of_succ_le_succ (by simpa using hs)
      by_cases hc : spacesClassChar c = true
      · have hlen : (cs.dropWhile spacesClassChar).length ≤ f :=
          le_trans (length_dropWhile_le _ _) hcs
        rw [show squashSpaceClassGo (f + 1) (c :: cs) =
            ' ' :: squashSpaceClassGo f (cs.dropWhile spacesClassChar) from by
          simp [squashSpaceClassGo, hc]]
        rw [ih _ hlen, ← specCollapse_skip,
          show mapWsToSpace spacesClassChar (c :: cs) =
            ' ' :: mapWsToSpace spacesClassChar cs from by simp [mapWsToSpace, hc]]
        simp [specCollapse]
      · have hc' : spacesClassChar c = false := by simpa using hc
        have hxs : ¬(c = ' ') := by
          intro h0
          subst h0
          exact absurd (by decide : spacesClassChar ' ' = true) (by simp [hc'])
        have hxbeq : (c == ' ') = false := by
          cases hb : c == ' ' with
          | true => exact absurd (beq_iff_eq.mp hb) hxs
          | false => rfl
        rw [show squashSpaceClassGo (f + 1) (c :: cs) = c :: squashSpaceClassGo f cs from by
          simp [squashSpaceClassGo, hc']]
        rw [ih _ hcs,
          show mapWsToSpace spacesClassChar (c :: cs) =
            c :: mapWsToSpace spacesClassChar cs from by simp [mapWsToSpace, hc']]
        simp [specCollapse, hxbeq]

theorem matchesHere_nil_false (p : Pattern) (h : matchesHere p.ignoreCase p.atoms [] = false) :
    p.atoms.isEmpty = false := by
  cases hat : p.atoms with
  | nil => rw [hat] at h; cases h
  | cons a as => rfl

theorem pySubGo_no_match :
    ∀ (p : Pattern) (t : List TItem) (fuel : Nat) (s : List Char),
      s.length ≤ fuel → hasMatch p s = false → pySubGo p t fuel s = s := by
  intro p t fuel
  induction fuel with
  | zero =>
    intro s hs hm
    have hnil : s = [] := List.length_eq_zero.mp (Nat.le_zero.mp hs)
    subst hnil
    have hm0 : matchesHere p.ignoreCase p.atoms [] = false := hm
    simp [pySubGo, matchesHere_nil_false p hm0]
  | succ f ih =>
    intro s hs hm
    cases s with
    | nil =>
      have hm0 : matchesHere p.ignoreCase p.atoms [] = false := hm
      simp [pySubGo, matchesHere_nil_false p hm0]
    | cons c cs =>
      have hcs : cs.length ≤ f := Nat.le_of_succ_le_succ (by simpa using hs)
      have hm1 : matchesHere p.ignoreCase p.atoms (c :: cs) = false ∧
          hasMatch p cs = false := by
        have : (matchesHere p.ignoreCase p.atoms (c :: cs) || hasMatch p cs) = false := hm
        exact ⟨by cases h1 : matchesHere p.ignoreCase p.atoms (c :: cs) with
                  | true => rw [h1] at this; cases this
                  | false => rfl,
               by cases h2 : hasMatch p cs with
                  | true => rw [h2] at this; simp at this
                  | false => rfl⟩
      have hempty : p.atoms.isEmpty = false := by
        cases hat : p.atoms with
        | nil =>
          have := hm1.1
          rw [show matchesHere p.ignoreCase p.atoms (c :: cs) = true from by
            rw [hat]; rfl] at this
          cases this
        | cons a as => rfl
      have heq : pySubGo p t (f + 1) (c :: cs) = c :: pySubGo p t f cs := by
        simp [pySubGo, hempty, hm1.1]
      rw [heq, ih cs hcs hm1.2]

theorem pySub_no_match (p : Pattern) (s : List Char) (t : List TItem)
    (h : hasMatch p s = false) : pySub p t s = s :=
  pySubGo_no_match p t s.length s (le_refl _) h

theorem parseTemplateGo_no_backslash :
    ∀ (fuel : Nat) (s : List Char), s.length ≤ fuel → (∀ c ∈ s, ¬(c = '\\')) →
      parseTemplateGo fuel s = some (s.map TItem.lit) := by
  intro fuel
  induction fuel with
  | zero =>
    intro s hs _
    have hnil : s = [] := List.length_eq_zero.mp (Nat.le_zero.mp hs)
    subst hnil
    rfl
  | succ f ih =>
    intro s hs hb
    cases s with
    | nil => rfl
    | cons c cs =>
      have hcs : cs.length ≤ f := Nat.le_of_succ_le_succ (by simpa using hs)
      have hc : ¬(c = '\\') := hb c (List.mem_cons_self c cs)
      have hcb : (c == '\\') = false := by
        cases h0 : c == '\\' with
        | true => exact absurd (beq_iff_eq.mp h0) hc
        | false => rfl
      have heq := ih cs hcs (fun x hx => hb x (List.mem_cons_of_mem c hx))
      simp [parseTemplateGo, hcb, heq]

theorem parseTemplate_no_backslash (repl : List Char) (h : ∀ c ∈ repl, ¬(c = '\\')) :
    parseTemplate repl = some (repl.map TItem.lit) :=
  parseTemplateGo_no_backslash repl.length repl (le_refl _) h

theorem matchesHere_iff (ic : Bool) :
    ∀ (atoms : List CClass) (s : List Char),
      matchesHere ic atoms s = true ↔
        ∃ s1 s2, s = s1 ++ s2 ∧ s1.length = atoms.length ∧
          (atoms.zip s1).all (fun pc => classMatches ic pc.1 pc.2) = true := by
  intro atoms
  induction atoms with
  | nil =>
    intro s
    constructor
    · intro _
      exact ⟨[], s, rfl, rfl, rfl⟩
    · intro _
      rfl
  | cons a as ih =>
    intro s
    cases s with
    | nil =>
      constructor
      · intro h
        cases h
      · rintro ⟨s1, s2, heq, hlen, _⟩
        have h1 : s1 = [] := by
          cases s1 with
          | nil => rfl
          | cons x xs => cases heq
        subst h1
        cases hlen
    | cons c cs =>
      constructor
      · intro h
        have h0 : (classMatches ic a c && matchesHere ic as cs) = true := h
        rw [Bool.and_eq_true] at h0
        have h1 := h0
        obtain ⟨s1, s2, heq, hlen, hall⟩ := (ih cs).mp h1.2
        refine ⟨c :: s1, s2, ?_, ?_, ?_⟩
        · rw [heq]
          rfl
        · simp [hlen]
        · show (classMatches ic a c && (as.zip s1).all (fun pc => classMatches ic pc.1 pc.2)) = true
          rw [h1.1, hall]
          rfl
      · rintro ⟨s1, s2, heq, hlen, hall⟩
        cases s1 with
        | nil => cases hlen
        | cons c1 s1' =>
          have hc1 : c1 = c := by
            have h2 := congrArg (fun l => l.head?) heq
            simpa using h2.symm
          subst hc1
          have hcs : cs = s1' ++ s2 := by
            have h2 := congrArg (fun l => l.tail) heq
            simpa using h2
          have hlen' : s1'.length = as.length := by simpa using hlen
          have hall0 : (classMatches ic a c1 &&
              (as.zip s1').all (fun pc => classMatches ic pc.1 pc.2)) = true := hall
          rw [Bool.and_eq_true] at hall0
          have hsplit := hall0
          have hm : matchesHere ic as cs = true :=
            (ih cs).mpr ⟨s1', s2, hcs, hlen', hsplit.2⟩
          show (classMatches ic a c1 && matchesHere ic as cs) = true
          rw [hsplit.1, hm]
          rfl

theorem classMatches_looseAtom (ic : Bool) (a c : Char) :
    classMatches ic (looseAtom a) c = looseCharRel ic a c := by
  unfold looseAtom looseCharRel
  by_cases h1 : hyphenChars.contains a = true
  · rw [if_pos h1, if_pos h1]
    rfl
  · rw [if_neg h1, if_neg h1]
    by_cases h2 : (isPySpace a || a == nbsp || a == nnbsp) = true
    · rw [if_pos h2, if_pos h2]
      rfl
    · rw [if_neg h2, if_neg h2]
      rfl

theorem contains_eq_true_of_mem (l : List (List Char)) (x : List Char) (h : x ∈ l) :
    l.contains x = true := by simpa using h

theorem contains_eq_false_of_not_mem (l : List (List Char)) (x : List Char) (h : x ∉ l) :
    l.contains x = false := by simpa using h

theorem runStep_dry (fs : List (List Char)) (e : List Char × List Char) :
    runStep fs false e = (fs, Outcome.collision) ∨
      runStep fs false e = (fs, Outcome.preview) := by
  unfold runStep
  by_cases h : (fs.contains e.2 && !(e.2 == e.1)) = true
  · rw [if_pos h]
    exact Or.inl rfl
  · rw [if_neg h]
    exact Or.inr rfl

theorem runPlan_cons (apply : Bool) (fs : List (List Char)) (e : List Char × List Char)
    (rest : List (List Char × List Char)) :
    runPlan apply fs (e :: rest) =
      ((runPlan apply (runStep fs apply e).1 rest).1,
       (runStep fs apply e).2 :: (runPlan apply (runStep fs apply e).1 rest).2) := by
  show (match runStep fs apply e with
    | (fs2, o) =>
      match runPlan apply fs2 rest with
      | (fs3, os) => (fs3, o :: os)) = _
  cases h1 : runStep fs apply e with
  | mk fs2 o =>
    cases h2 : runPlan apply fs2 rest with
    | mk fs3 os => simp [h2]

theorem runPlan_dry (fs : List (List Char)) :
    ∀ plan, (runPlan false fs plan).1 = fs ∧
      ((runPlan false fs plan).2.all
        (fun o => o == Outcome.preview || o == Outcome.collision)) = true := by
  intro plan
  induction plan with
  | nil => exact ⟨rfl, rfl⟩
  | cons e rest ih =>
    rw [runPlan_cons]
    rcases runStep_dry fs e with h | h
    · rw [h]
      exact ⟨ih.1, by simp [ih.2]⟩
    · rw [h]
      exact ⟨ih.1, by simp [ih.2]⟩

theorem beq_list_false_of_ne (x y : List Char) (h : ¬(x = y)) : (x == y) = false := by
  cases hb : x == y with
  | true => exact absurd (beq_iff_eq.mp hb) h
  | false => rfl

theorem propose_some_eq (name : List Char) (p : Pattern) (mode : Mode)
    (repl res : List Char) (h1 : hasMatch p name = false)
    (h2 : normalize_spaces name = name)
    (hprop : propose_new_name name p mode repl = some res) : res = name := by
  cases mode with
  | delete =>
    have h0 : some (normalize_spaces (pySub p [] name)) = some res := hprop
    have h3 := Option.some.inj h0
    rw [← h3, pySub_no_match p name [] h1, h2]
  | replace =>
    unfold propose_new_name at hprop
    cases hp : parseTemplate repl with
    | none =>
      rw [show (match Mode.replace with | Mode.delete => ([] : List Char) | Mode.replace => repl) = repl from rfl, hp] at hprop
      cases hprop
    | some t =>
      rw [show (match Mode.replace with | Mode.delete => ([] : List Char) | Mode.replace => repl) = repl from rfl, hp] at hprop
      have h3 := Option.some.inj hprop
      rw [← h3, pySub_no_match p name t h1, h2]

theorem all_map_comp {α β : Type} (f : α → β) (p : β → Bool) :
    ∀ l : List α, (l.map f).all p = l.all (fun a => p (f a))
  | [] => rfl
  | x :: xs => by
    show (p (f x) && (xs.map f).all p) = (p (f x) && xs.all fun a => p (f a))
    rw [all_map_comp f p xs]

/-! ### Claim theorems -/

/-- C10: for every filename and compiled pattern, proposing a new name in
replace mode with empty replacement text yields exactly the same result as
proposing in delete mode (whose replacement argument is ignored). -/
theorem claim_replace_empty_eq_delete (name : List Char) (p : Pattern)
    (repl : List Char) :
    propose_new_name name p Mode.replace [] =
      propose_new_name name p Mode.delete repl := rfl

/-- C4 (counterexample): the Normalizer replaces a tab (which is not one of
the three spacing characters named by the spec) with an ASCII space, so
the code differs from the spec's described function on the input built of
the characters a, tab, b. -/
theorem claim_normalizer_counterexample :
    normalize_spaces ['a', '\t', 'b'] = ['a', ' ', 'b'] ∧
    normalizeSpacesClaim ['a', '\t', 'b'] = ['a', '\t', 'b'] ∧
    ¬(normalize_spaces ['a', '\t', 'b'] = normalizeSpacesClaim ['a', '\t', 'b']) := by
  decide

/-- C4 (amended): the Normalizer is the total function that replaces every
whitespace character (the Python whitespace set — which strictly contains
the spec's three characters ASCII space, NBSP and narrow NBSP, adding tab,
newline and the other Unicode spaces) by a single ASCII space, collapses
runs of two or more resulting spaces to one, removes a space immediately
preceding a period, and strips leading and trailing whitespace. -/
theorem claim_normalizer_contract (s : List Char) :
    normalize_spaces s = specNormalize spacesClassChar s := by
  obtain ⟨aW, aC, _⟩ := squashSpaceClassGo_inv s.length s (le_refl _)
  unfold normalize_spaces specNormalize
  rw [show squashWsRuns (squashSpaceClass s) = squashSpaceClass s from
    squashWsRunsGo_id _ _ (le_refl _) aC]
  rw [show dropWsBeforeDot (squashSpaceClass s) =
      removeSpaceBeforeDot (squashSpaceClass s) from
    dropWsBeforeDotGo_spec _ _ (le_refl _) aW aC]
  rw [show squashSpaceClass s = specCollapse false (mapWsToSpace spacesClassChar s) from
    squashSpaceClassGo_spec _ _ (le_refl _)]

/-- C6: with the apply flag unset no step of the run mutates the
filesystem: the execution loop returns the filesystem unchanged whatever
the plan (with or without collisions), every non-collision entry is
reported as a dry-run preview and no entry is ever renamed or errors, and
the whole pipeline of `main` leaves the filesystem as it was; planning
(`collect_changes`) is by construction a pure function of the enumerated
names, performing no filesystem operation. -/
theorem claim_dry_run_no_mutation (fs : List (List Char))
    (plan : List (List Char × List Char)) (dirOk : Bool)
    (resolved : Option (List Char)) (home : List Char) (force : Bool)
    (files : List (List Char)) (p : Pattern) (mode : Mode) (repl : List Char) :
    (runPlan false fs plan).1 = fs ∧
    ((runPlan false fs plan).2.all
      (fun o => o == Outcome.preview || o == Outcome.collision)) = true ∧
    (resultFs (mainRun dirOk resolved home force files p mode repl false fs) = none ∨
     resultFs (mainRun dirOk resolved home force files p mode repl false fs) = some fs) := by
  refine ⟨(runPlan_dry fs plan).1, (runPlan_dry fs plan).2, ?_⟩
  unfold mainRun
  by_cases h1 : (!dirOk) = true
  · rw [if_pos h1]
    exact Or.inl rfl
  · rw [if_neg h1]
    by_cases h2 : (is_dangerous_root resolved home && !force) = true
    · rw [if_pos h2]
      exact Or.inl rfl
    · rw [if_neg h2]
      cases hc : collect_changes files p mode repl with
      | none => exact Or.inl rfl
      | some pr =>
        cases pr with
        | mk pl total =>
          right
          have h3 := (runPlan_dry fs pl).1
          show resultFs (match runPlan false fs pl with
            | (fs2, os) => RunResult.completed pl total fs2 os) = some fs
          cases hr : runPlan false fs pl with
          | mk fs2 os =>
            have hfs : fs2 = fs := by
              rw [hr] at h3
              exact h3
            rw [show resultFs (RunResult.completed pl total fs2 os) = some fs2 from rfl, hfs]

/-- C1 (counterexample): the filename built of a, space, space, b contains
no occurrence of the phrase "z", yet the proposed name is the normalized
"a b", different from the original, and a plan entry is produced for the
file. -/
theorem claim_no_occurrence_counterexample :
    hasMatch (build_pattern ['z'] false false) ['a', ' ', ' ', 'b'] = false ∧
    propose_new_name ['a', ' ', ' ', 'b'] (build_pattern ['z'] false false)
      Mode.delete [] = some ['a', ' ', 'b'] ∧
    ¬((['a', ' ', 'b'] : List Char) = ['a', ' ', ' ', 'b']) ∧
    collect_changes [['a', ' ', ' ', 'b']] (build_pattern ['z'] false false)
      Mode.delete [] = some ([(['a', ' ', ' ', 'b'], ['a', ' ', 'b'])], 1) := by
  decide

/-- C2 (counterexample): with the literal pattern "x" and a replacement
containing the group-0 reference followed by an exclamation mark, the code
substitutes the expanded template (the matched text then the exclamation
mark, giving "ax!b"), not the replacement text verbatim as the spec
claims. -/
theorem claim_verbatim_replacement_counterexample :
    propose_new_name ['a', 'x', 'b'] (build_pattern ['x'] false false) Mode.replace
      ['\\', 'g', '<', '0', '>', '!'] = some ['a', 'x', '!', 'b'] ∧
    proposeVerbatimClaim ['a', 'x', 'b'] (build_pattern ['x'] false false)
      ['\\', 'g', '<', '0', '>', '!'] = ['a', '\\', 'g', '<', '0', '>', '!', 'b'] ∧
    ¬(propose_new_name ['a', 'x', 'b'] (build_pattern ['x'] false false) Mode.replace
        ['\\', 'g', '<', '0', '>', '!'] =
      some (proposeVerbatimClaim ['a', 'x', 'b'] (build_pattern ['x'] false false)
        ['\\', 'g', '<', '0', '>', '!'])) := by
  decide

/-- C3 (counterexample): in the loose pattern built from the phrase of a,
space, b, the space becomes the space class, and that class matches a tab
character, which is outside the three-element set that the spec claims the
class matches exactly. -/
theorem claim_space_class_counterexample :
    (build_pattern ['a', ' ', 'b'] false true).atoms =
      [CClass.lit 'a', CClass.sp, CClass.lit 'b'] ∧
    matchesHere false (build_pattern ['a', ' ', 'b'] false true).atoms
      ['a', '\t', 'b'] = true ∧
    claimSpacingChar '\t' = false := by
  decide

/-- C5 (counterexample): in a dry run, two plan entries proposing the same
target name are both reported as previews — the second is not reported as
a collision, because collision detection consults the live (unmodified)
filesystem where the target does not yet exist. -/
theorem claim_collision_counterexample :
    runPlan false [['a'], ['b']] [(['a'], ['c']), (['b'], ['c'])] =
      ([['a'], ['b']], [Outcome.preview, Outcome.preview]) ∧
    ¬(Outcome.preview = Outcome.collision) := by
  decide

/-- C9 (counterexample): with phrase a-a, the filename a-a-a (all plain
hyphen-minus) and its variant with both dashes replaced by en dashes give
different loose-delete outputs (hyphen-a versus en-dash-a): when
occurrences of the phrase overlap, the surviving dash keeps its variant
glyph, so the outputs are not identical for all dash variants. -/
theorem claim_loose_dash_counterexample :
    propose_new_name ['a', '-', 'a', '-', 'a'] (build_pattern ['a', '-', 'a'] false true)
      Mode.delete [] = some ['-', 'a'] ∧
    propose_new_name ['a', '–', 'a', '–', 'a'] (build_pattern ['a', '-', 'a'] false true)
      Mode.delete [] = some ['–', 'a'] ∧
    ¬((['-', 'a'] : List Char) = ['–', 'a']) := by
  decide

/-- C1 (amended): for every filename that contains no occurrence of the
phrase under the current pattern (mode, case flag and looseness) and that
is already space-normalized (a fixed point of the Normalizer), the
planner's proposed name equals the original name: delete mode proposes the
name itself, any successful proposal equals the name, and no plan entry
with that original name is produced.  (Unrestricted, the claim fails: the
Normalizer may change an unmatched name, see the counterexample.) -/
theorem claim_no_occurrence_no_entry (name : List Char) (p : Pattern) (mode : Mode)
    (repl : List Char) (files : List (List Char))
    (h1 : hasMatch p name = false) (h2 : normalize_spaces name = name) :
    propose_new_name name p Mode.delete repl = some name ∧
    (propose_new_name name p mode repl).all (fun res => res == name) = true ∧
    (collect_changes files p mode repl).all
      (fun pr => pr.1.all (fun e => !(e.1 == name))) = true := by
  refine ⟨?_, ?_, ?_⟩
  · show some (normalize_spaces (pySub p [] name)) = some name
    rw [pySub_no_match p name [] h1, h2]
  · cases hp : propose_new_name name p mode repl with
    | none => rfl
    | some res =>
      have hres : res = name := propose_some_eq name p mode repl res h1 h2 hp
      show (res == name) = true
      rw [hres]
      exact beq_self_eq_true name
  · induction files with
    | nil => rfl
    | cons f rest ihf =>
      show ((match propose_new_name f p mode repl with
        | none => none
        | some new =>
          match collect_changes rest p mode repl with
          | none => none
          | some (plan, total) =>
            some ((if !(new == f) then (f, new) :: plan else plan), total + 1) :
          Option (List (List Char × List Char) × Nat)).all
        (fun pr => pr.1.all (fun e => !(e.1 == name)))) = true
      cases hp : propose_new_name f p mode repl with
      | none => rfl
      | some new =>
        cases hcc : collect_changes rest p mode repl with
        | none => rfl
        | some pr2 =>
          cases pr2 with
          | mk plan total =>
            have hplan : plan.all (fun e => !(e.1 == name)) = true := by
              have h4 := ihf
              rw [hcc] at h4
              exact h4
            show ((if (!(new == f)) = true then (f, new) :: plan else plan).all
              (fun e => !(e.1 == name))) = true
            by_cases hnf : (!(new == f)) = true
            · rw [if_pos hnf]
              show ((!(f == name)) && plan.all (fun e => !(e.1 == name))) = true
              have hfname : ¬(f = name) := by
                intro heq
                subst heq
                have hnew : new = f := propose_some_eq f p mode repl new h1 h2 hp
                rw [hnew, beq_self_eq_true f] at hnf
                cases hnf
              rw [beq_list_false_of_ne f name hfname, hplan]
              rfl
            · rw [if_neg hnf]
              exact hplan

/-- C1 (witness). -/
theorem claim_no_occurrence_no_entry_witness :
    propose_new_name ['x'] (build_pattern ['z'] false false) Mode.delete [] =
      some ['x'] ∧
    (propose_new_name ['x'] (build_pattern ['z'] false false) Mode.delete []).all
      (fun res => res == ['x']) = true ∧
    (collect_changes [['x']] (build_pattern ['z'] false false) Mode.delete []).all
      (fun pr => pr.1.all (fun e => !(e.1 == ['x']))) = true :=
  claim_no_occurrence_no_entry ['x'] (build_pattern ['z'] false false) Mode.delete []
    [['x']] (by decide) (by decide)

/-- C2 (amended): in delete mode every match occurrence is removed; in
replace mode the replacement text is interpreted as a regex substitution
template (backslash escapes and group references are expanded, and an
invalid template raises before any matching); a replacement containing no
backslash is inserted verbatim.  Both results then pass through the
Normalizer. -/
theorem claim_replacement_semantics (name : List Char) (p : Pattern)
    (repl : List Char) (h : ∀ c ∈ repl, ¬(c = '\\')) :
    propose_new_name name p Mode.delete repl =
      some (normalize_spaces (pySub p [] name)) ∧
    propose_new_name name p Mode.replace repl =
      some (proposeVerbatimClaim name p repl) := by
  constructor
  · rfl
  · show (match parseTemplate repl with
      | none => none
      | some t => some (normalize_spaces (pySub p t name))) =
        some (proposeVerbatimClaim name p repl)
    rw [parseTemplate_no_backslash repl h]
    rfl

/-- C2 (witness). -/
theorem claim_replacement_semantics_witness :
    propose_new_name ['a', 'x', 'b'] (build_pattern ['x'] false false) Mode.delete ['Y'] =
      some (normalize_spaces (pySub (build_pattern ['x'] false false) [] ['a', 'x', 'b'])) ∧
    propose_new_name ['a', 'x', 'b'] (build_pattern ['x'] false false) Mode.replace ['Y'] =
      some (proposeVerbatimClaim ['a', 'x', 'b'] (build_pattern ['x'] false false) ['Y']) :=
  claim_replacement_semantics ['a', 'x', 'b'] (build_pattern ['x'] false false) ['Y']
    (by decide)

/-- C3 (amended): the loose pattern builder first NFKC-normalizes the
phrase and then compiles it character by character: each of the nine
hyphen-equivalent characters becomes a class matching exactly that
nine-element set, each whitespace character becomes a class matching
exactly the Python whitespace characters together with NBSP and narrow
NBSP (a strict superset of the spec's three-element set), and every other
character is escaped literally; the compiled pattern matches exactly the
prefixes that agree with the normalized phrase pointwise under that
per-character relation. -/
theorem claim_loose_pattern_semantics (phrase : List Char) (ic : Bool) (s : List Char) :
    (build_pattern phrase ic true).atoms = (nfkc phrase).map looseAtom ∧
    (build_pattern phrase ic true).ignoreCase = ic ∧
    (matchesHere ic (build_pattern phrase ic true).atoms s = true ↔
      ∃ s1 s2, s = s1 ++ s2 ∧ s1.length = (nfkc phrase).length ∧
        ((nfkc phrase).zip s1).all (fun pc => looseCharRel ic pc.1 pc.2) = true) := by
  refine ⟨rfl, rfl, ?_⟩
  have hz : ∀ s1 : List Char,
      (((nfkc phrase).map looseAtom).zip s1).all
        (fun pc => classMatches ic pc.1 pc.2) =
      ((nfkc phrase).zip s1).all (fun pc => looseCharRel ic pc.1 pc.2) := by
    intro s1
    rw [List.zip_map_left, all_map_comp]
    congr 1
    exact funext fun pc => classMatches_looseAtom ic pc.1 pc.2
  rw [show (build_pattern phrase ic true).atoms = (nfkc phrase).map looseAtom from rfl,
    matchesHere_iff]
  constructor
  · rintro ⟨s1, s2, heq, hlen, hall⟩
    refine ⟨s1, s2, heq, by simpa using hlen, ?_⟩
    rw [← hz]
    exact hall
  · rintro ⟨s1, s2, heq, hlen, hall⟩
    refine ⟨s1, s2, heq, by simpa using hlen, ?_⟩
    rw [hz]
    exact hall

/-- C3 (witness). -/
theorem claim_loose_pattern_semantics_witness :
    matchesHere false (build_pattern ['a', ' ', 'b'] false true).atoms
      ['a', '\t', 'b', 'x'] = true :=
  (claim_loose_pattern_semantics ['a', ' ', 'b'] false ['a', '\t', 'b', 'x']).2.2.mpr
    ⟨['a', '\t', 'b'], ['x'], rfl, by decide, by decide⟩

/-- C5 (amended): every plan entry whose proposed path exists in the live
filesystem and differs from the original is marked as a collision and
skipped with no mutation and no error, and the run continues with the
remaining entries.  When two distinct entries propose the same target:
with apply set, the first is renamed and the second is then detected
against the now-occupied target, reported as a collision and left at its
original name on disk; with apply unset the target never appears on disk,
so both entries are reported as previews (the dry run does not report the
second entry as a collision — see the counterexample). -/
theorem claim_collision_policy (fs : List (List Char)) (apply : Bool)
    (src dst s1 s2 d : List Char) (plan : List (List Char × List Char))
    (hc1 : dst ∈ fs) (hc2 : ¬(dst = src)) (h1 : d ∉ fs) (h2 : s1 ∈ fs)
    (h3 : s2 ∈ fs) (h4 : ¬(d = s1)) (h5 : ¬(d = s2)) (h6 : ¬(s2 = s1)) :
    runStep fs apply (src, dst) = (fs, Outcome.collision) ∧
    runPlan apply fs ((src, dst) :: plan) =
      ((runPlan apply fs plan).1, Outcome.collision :: (runPlan apply fs plan).2) ∧
    runPlan true fs [(s1, d), (s2, d)] =
      (d :: fs.erase s1, [Outcome.renamed, Outcome.collision]) ∧
    s2 ∈ d :: fs.erase s1 ∧
    runPlan false fs [(s1, d), (s2, d)] = (fs, [Outcome.preview, Outcome.preview]) := by
  have hdc : fs.contains dst = true := contains_eq_true_of_mem fs dst hc1
  have hds : (dst == src) = false := beq_list_false_of_ne dst src hc2
  have hstep : runStep fs apply (src, dst) = (fs, Outcome.collision) := by
    unfold runStep
    rw [if_pos (by rw [show ((src, dst).2 : List Char) = dst from rfl,
      show ((src, dst).1 : List Char) = src from rfl, hdc, hds]; rfl)]
  have hdn : fs.contains d = false := contains_eq_false_of_not_mem fs d h1
  have hs1c : fs.contains s1 = true := contains_eq_true_of_mem fs s1 h2
  have hds2 : (d == s2) = false := beq_list_false_of_ne d s2 h5
  have step1 : runStep fs true (s1, d) = (d :: fs.erase s1, Outcome.renamed) := by
    unfold runStep
    rw [if_neg (by rw [show ((s1, d).2 : List Char) = d from rfl, hdn]; simp)]
    rw [if_pos rfl, if_pos (by rw [show ((s1, d).1 : List Char) = s1 from rfl, hs1c])]
  have hfs2c : (d :: fs.erase s1).contains d = true := by simp
  have step2 : runStep (d :: fs.erase s1) true (s2, d) =
      (d :: fs.erase s1, Outcome.collision) := by
    unfold runStep
    rw [if_pos (by rw [show ((s2, d).2 : List Char) = d from rfl,
      show ((s2, d).1 : List Char) = s2 from rfl, hfs2c, hds2]; rfl)]
  have dry1 : runStep fs false (s1, d) = (fs, Outcome.preview) := by
    unfold runStep
    rw [if_neg (by rw [show ((s1, d).2 : List Char) = d from rfl, hdn]; simp)]
    rfl
  have dry2 : runStep fs false (s2, d) = (fs, Outcome.preview) := by
    unfold runStep
    rw [if_neg (by rw [show ((s2, d).2 : List Char) = d from rfl, hdn]; simp)]
    rfl
  refine ⟨hstep, ?_, ?_, ?_, ?_⟩
  · rw [runPlan_cons, hstep]
  · rw [runPlan_cons, step1]
    rw [runPlan_cons, step2]
    rfl
  · exact List.mem_cons_of_mem d ((List.mem_erase_of_ne h6).mpr h3)
  · rw [runPlan_cons, dry1]
    rw [runPlan_cons, dry2]
    rfl

/-- C5 (witness). -/
theorem claim_collision_policy_witness :
    runStep [['a'], ['b']] false (['a'], ['b']) = ([['a'], ['b']], Outcome.collision) ∧
    runPlan false [['a'], ['b']] [(['a'], ['b'])] =
      ((runPlan false [['a'], ['b']] []).1,
       Outcome.collision :: (runPlan false [['a'], ['b']] []).2) ∧
    runPlan true [['a'], ['b']] [(['a'], ['c']), (['b'], ['c'])] =
      (['c'] :: [['a'], ['b']].erase ['a'], [Outcome.renamed, Outcome.collision]) ∧
    ['b'] ∈ ['c'] :: [['a'], ['b']].erase ['a'] ∧
    runPlan false [['a'], ['b']] [(['a'], ['c']), (['b'], ['c'])] =
      ([['a'], ['b']], [Outcome.preview, Outcome.preview]) :=
  claim_collision_policy [['a'], ['b']] false ['a'] ['b'] ['a'] ['b'] ['c'] []
    (by decide) (by decide) (by decide) (by decide) (by decide) (by decide)
    (by decide) (by decide)

/-- C7: re-running the planner with the same pattern on a directory whose
files have already been renamed by it (every name is an output of the
delete-mode proposal, hence a fixed point of the Normalizer) and whose
names contain no occurrence of the phrase produces zero further plan
entries. -/
theorem claim_planner_idempotent (files : List (List Char)) (p : Pattern)
    (h1 : ∀ name ∈ files, hasMatch p name = false)
    (h2 : ∀ name ∈ files, ∃ orig, propose_new_name orig p Mode.delete [] = some name) :
    collect_changes files p Mode.delete [] = some ([], files.length) := by
  induction files with
  | nil => rfl
  | cons f rest ih =>
    obtain ⟨orig, horig⟩ := h2 f (List.mem_cons_self f rest)
    have hnorm : normalize_spaces f = f := by
      have hf : normalize_spaces (pySub p [] orig) = f := by
        have h0 : propose_new_name orig p Mode.delete [] =
            some (normalize_spaces (pySub p [] orig)) := rfl
        rw [h0] at horig
        exact Option.some.inj horig
      rw [← hf]
      exact normalize_spaces_idem _
    have hmatch := h1 f (List.mem_cons_self f rest)
    have hprop : propose_new_name f p Mode.delete [] = some f := by
      show some (normalize_spaces (pySub p [] f)) = some f
      rw [pySub_no_match p f [] hmatch, hnorm]
    have ihh := ih (fun n hn => h1 n (List.mem_cons_of_mem f hn))
      (fun n hn => h2 n (List.mem_cons_of_mem f hn))
    show (match propose_new_name f p Mode.delete [] with
      | none => none
      | some new =>
        match collect_changes rest p Mode.delete [] with
        | none => none
        | some (plan, total) =>
          some ((if !(new == f) then (f, new) :: plan else plan), total + 1)) =
      some ([], (f :: rest).length)
    rw [hprop, ihh]
    show some ((if !(f == f) then (f, f) :: [] else []), rest.length + 1) =
      some ([], (f :: rest).length)
    rw [beq_self_eq_true f]
    rfl

/-- C7 (witness). -/
theorem claim_planner_idempotent_witness :
    collect_changes [['r', 'e', 'p', 'o', 'r', 't', '.', 'p', 'd', 'f']]
      (build_pattern ['(', 't', 'a', 'g', ')'] false false) Mode.delete [] =
      some ([], 1) := by
  have h := claim_planner_idempotent
    [['r', 'e', 'p', 'o', 'r', 't', '.', 'p', 'd', 'f']]
    (build_pattern ['(', 't', 'a', 'g', ')'] false false)
    (by decide)
    (by
      intro name hn
      have hn2 : name = ['r', 'e', 'p', 'o', 'r', 't', '.', 'p', 'd', 'f'] := by
        simpa using hn
      subst hn2
      exact ⟨['r', 'e', 'p', 'o', 'r', 't', ' ', ' ', '(', 't', 'a', 'g', ')',
        ' ', ' ', '.', 'p', 'd', 'f'], by decide⟩)
  exact h

/-- C8: with a valid target directory, if the target resolves to the
filesystem root or to the home directory and force is not set, the run is
refused before any enumeration (the refused outcome carries no plan) with
exit code 2, which is non-zero and distinct from the invalid-directory
exit code 1; if resolution of the target fails, `is_dangerous_root` fails
open (returns false) and the run proceeds past both early exits. -/
theorem claim_safety_gate (resolved : Option (List Char)) (home r : List Char)
    (force force2 : Bool) (files fs : List (List Char)) (p : Pattern) (mode : Mode)
    (repl : List Char) (apply : Bool)
    (h1 : resolved = some r) (h2 : r = rootPath ∨ r = home) (h3 : force = false) :
    mainRun true resolved home force files p mode repl apply fs = RunResult.refused ∧
    exitCode RunResult.refused = 2 ∧ exitCode RunResult.badDir = 1 ∧
    exitCode (RunResult.completed [] 0 fs []) = 0 ∧
    is_dangerous_root none home = false ∧
    mainRun true none home force2 files p mode repl apply fs ≠ RunResult.refused ∧
    mainRun true none home force2 files p mode repl apply fs ≠ RunResult.badDir := by
  subst h1
  subst h3
  have hdang : is_dangerous_root (some r) home = true := by
    show (r == rootPath || r == home) = true
    rcases h2 with h | h
    · rw [show (r == rootPath) = true from by rw [h]; exact beq_self_eq_true _]
      rfl
    · rw [show (r == home) = true from by rw [h]; exact beq_self_eq_true _]
      exact Bool.or_true _
  refine ⟨?_, rfl, rfl, rfl, rfl, ?_, ?_⟩
  · unfold mainRun
    rw [hdang]
    rfl
  · unfold mainRun
    show (match collect_changes files p mode repl with
      | none => RunResult.crashed
      | some (plan, total) =>
        match runPlan apply fs plan with
        | (fs2, os) => RunResult.completed plan total fs2 os) ≠ RunResult.refused
    cases collect_changes files p mode repl with
    | none => intro h0; cases h0
    | some pr =>
      cases pr with
      | mk pl total =>
        cases runPlan apply fs pl with
        | mk fs2 os => intro h0; cases h0
  · unfold mainRun
    show (match collect_changes files p mode repl with
      | none => RunResult.crashed
      | some (plan, total) =>
        match runPlan apply fs plan with
        | (fs2, os) => RunResult.completed plan total fs2 os) ≠ RunResult.badDir
    cases collect_changes files p mode repl with
    | none => intro h0; cases h0
    | some pr =>
      cases pr with
      | mk pl total =>
        cases runPlan apply fs pl with
        | mk fs2 os => intro h0; cases h0

/-- C8 (witness). -/
theorem claim_safety_gate_witness :
    mainRun true (some ['/']) ['h'] false [] (build_pattern ['z'] false false)
      Mode.delete [] false [] = RunResult.refused ∧
    exitCode RunResult.refused = 2 ∧ exitCode RunResult.badDir = 1 ∧
    exitCode (RunResult.completed [] 0 [] []) = 0 ∧
    is_dangerous_root none ['h'] = false ∧
    mainRun true none ['h'] false [] (build_pattern ['z'] false false)
      Mode.delete [] false [] ≠ RunResult.refused ∧
    mainRun true none ['h'] false [] (build_pattern ['z'] false false)
      Mode.delete [] false [] ≠ RunResult.badDir :=
  claim_safety_gate (some ['/']) ['h'] ['/'] false false [] []
    (build_pattern ['z'] false false) Mode.delete [] false rfl (Or.inl rfl) rfl

/-- C9 (amended): for the test filename in which a single clean occurrence
of the phrase "(Z-Library)" uses a dash variant in place of the phrase's
hyphen-minus, loose mode with delete produces the identical proposed name
"A B.pdf" for every one of the nine hyphen-equivalent dash variants, while
non-loose mode matches none of the variant filenames whose dash is not the
plain hyphen-minus and proposes them unchanged.  (For overlapping
occurrences the loose outputs can differ between variants — see the
counterexample.) -/
theorem claim_loose_dash_variants (d e : Char) (hd : d ∈ hyphenChars)
    (he : e ∈ hyphenChars) (hne : ¬(e = '-')) :
    propose_new_name (dashName d) (build_pattern zPhrase false true) Mode.delete [] =
      some ['A', ' ', 'B', '.', 'p', 'd', 'f'] ∧
    hasMatch (build_pattern zPhrase false false) (dashName e) = false ∧
    propose_new_name (dashName e) (build_pattern zPhrase false false) Mode.delete [] =
      some (dashName e) := by
  refine ⟨?_, ?_, ?_⟩
  · unfold hyphenChars at hd
    fin_cases hd <;> decide
  · unfold hyphenChars at he
    fin_cases he
    · exact absurd rfl hne
    all_goals decide
  · unfold hyphenChars at he
    fin_cases he
    · exact absurd rfl hne
    all_goals decide

/-- C9 (witness, at the en dash). -/
theorem claim_loose_dash_variants_witness :
    propose_new_name (dashName '–') (build_pattern zPhrase false true) Mode.delete [] =
      some ['A', ' ', 'B', '.', 'p', 'd', 'f'] ∧
    hasMatch (build_pattern zPhrase false false) (dashName '–') = false ∧
    propose_new_name (dashName '–') (build_pattern zPhrase false false) Mode.delete [] =
      some (dashName '–') :=
  claim_loose_dash_variants '–' '–' (by decide) (by decide) (by decide)

end Renamer
